import Mathlib

/-!
# Positional scanner of the stanza file consumer

A shallow embedding of `pkg/stanza/fileconsumer/scanner.go`: the split function that
`NewPositionalScanner` installs on a `bufio.Scanner` (it truncates oversized tokens and
counts the bytes consumed), the position query `Pos` and the error mapping `getError`,
together with the loop of `bufio.Scanner.Scan` that drives the split function.

Conventions of the embedding:
* Go `int` is taken as the 64-bit two's-complement integer of the 64-bit targets, like
  `int64`; values are `Int` and every arithmetic result is reduced with `wrapInt`.
* a computation that ends in a Go run-time panic (slice bounds out of range, calling
  `Buffer` or `Split` after `Scan`) returns `none`.
-/

namespace Fileconsumer

/-! ## Machine integers -/

/-- The smallest value of a 64-bit signed integer. -/
def intMin : Int := -(2 ^ 63)

/-- The largest value of a 64-bit signed integer. -/
def intMax : Int := 2 ^ 63 - 1

/-- Two's-complement reduction of a mathematical integer to 64 bits. -/
def wrapInt (x : Int) : Int := (x + 2 ^ 63) % 2 ^ 64 - 2 ^ 63

/-- The value is representable as a 64-bit signed integer. -/
def InRange (x : Int) : Prop := intMin ≤ x ∧ x ≤ intMax

instance (x : Int) : Decidable (InRange x) := by
  unfold InRange; infer_instance

/-! ## Byte slices -/

/-- One byte. -/
abbrev Byte := Fin 256

/-- A Go `[]byte` value: either the nil slice, or a slice with its visible elements
(`elems`, of length `len`) and the content of the backing array between `len` and `cap`
(`spare`). -/
inductive ByteSlice where
  | nil : ByteSlice
  | mk (elems spare : List Byte) : ByteSlice
  deriving DecidableEq, Repr

namespace ByteSlice

/-- The visible elements of the slice. -/
def toList : ByteSlice → List Byte
  | nil => []
  | mk elems _ => elems

/-- The whole backing content reachable from the slice, up to its capacity. -/
def backing : ByteSlice → List Byte
  | nil => []
  | mk elems spare => elems ++ spare

/-- Go `len(s)`. -/
def len (s : ByteSlice) : Int := (s.toList.length : Int)

/-- Go `cap(s)`. -/
def cap (s : ByteSlice) : Int := (s.backing.length : Int)

/-- Go `s[:n]`: panics (`none`) unless `0 ≤ n ≤ cap(s)`; slicing the nil slice gives the
nil slice. -/
def sliceTo (s : ByteSlice) (n : Int) : Option ByteSlice :=
  if n < 0 ∨ s.cap < n then none
  else
    match s with
    | nil => some nil
    | mk elems spare =>
      some (mk ((elems ++ spare).take n.toNat) ((elems ++ spare).drop n.toNat))

/-- Go `make([]byte, 0, c)`: an empty slice over a zeroed array of `c` bytes. -/
def make0 (c : Nat) : ByteSlice := mk [] (List.replicate c 0)

/-- Go `s[0:cap(s)]`. -/
def full : ByteSlice → ByteSlice
  | nil => nil
  | mk elems spare => mk (elems ++ spare) []

end ByteSlice

/-! ## Errors -/

/-- Go `error` values, as far as this file can tell them apart. A nil `error` is `none`
of `Option GoError`. -/
inductive GoError where
  /-- The sentinel `bufio.ErrTooLong`. -/
  | errTooLong : GoError
  /-- The sentinel `io.EOF`. -/
  | eof : GoError
  /-- The sentinel `bufio.ErrFinalToken`. -/
  | errFinalToken : GoError
  /-- Any other error value without a cause. -/
  | plain (msg : String) : GoError
  /-- An error whose `Unwrap` method returns `cause`. -/
  | wrapping (msg : String) (cause : GoError) : GoError
  /-- The value of `stanzaerrors.NewError(description, suggestion)`. -/
  | agentNew (description suggestion : String) : GoError
  /-- The value of `stanzaerrors.Wrap(err, description)`. -/
  | agentWrap (err : GoError) (description : String) : GoError
  deriving DecidableEq, Repr

/-- Modelled from the spec: package `stanzaerrors` (`pkg/stanza/errors`) is not among the
sources. `NewError` builds the error with the given description and suggestion; the value
is kept symbolic. -/
def NewError (description suggestion : String) : GoError :=
  GoError.agentNew description suggestion

/-- Modelled from the spec: package `stanzaerrors` (`pkg/stanza/errors`) is not among the
sources. `Wrap` gives the error "wrapped with a short description of origin"; the value is
kept symbolic, holding the error and the description. -/
def Wrap (err : GoError) (description : String) : GoError :=
  GoError.agentWrap err description

/-- Go `errors.Is(err, target)` for a non-nil `err` and a sentinel `target`: walk the
`Unwrap` chain of `err` and compare every link with `target`. -/
def GoError.is : GoError → GoError → Bool
  | GoError.wrapping msg cause, target =>
    decide (GoError.wrapping msg cause = target) || GoError.is cause target
  | e, target => decide (e = target)

/-- Go `errors.Is(err, target)` with a non-nil `target`; a nil `err` is no match. -/
def errorsIs (err : Option GoError) (target : GoError) : Bool :=
  match err with
  | none => false
  | some e => e.is target

/-! ## The scanner -/

/-- The result triple of a `bufio.SplitFunc`. -/
structure SplitResult where
  advance : Int
  token : ByteSlice
  err : Option GoError
  deriving DecidableEq, Repr

/-- A `bufio.SplitFunc`: from the buffered data and the end-of-input flag to a result. -/
abbrev SplitFunc := ByteSlice → Bool → SplitResult

/-- An `io.Reader`, by the bytes it has still to deliver. -/
abbrev Reader := List Byte

/-- The split function held by a `bufio.Scanner`: the default `bufio.ScanLines`, or the
closure `scanFunc` of `NewPositionalScanner` with the variables it captures. -/
inductive SplitImpl where
  | scanLines : SplitImpl
  | scanFunc (maxLogSize : Int) (splitFunc : SplitFunc) : SplitImpl

/-- The fields of `bufio.Scanner`. -/
structure Scanner where
  r : Reader
  split : SplitImpl
  maxTokenSize : Int
  token : ByteSlice
  buf : ByteSlice
  start : Int
  stop : Int
  err : Option GoError
  empties : Int
  scanCalled : Bool
  done : Bool

/-- Go `bufio.MaxScanTokenSize`. -/
def MaxScanTokenSize : Int := 64 * 1024

/-- Go `bufio.NewScanner(r)`. -/
def NewScanner (r : Reader) : Scanner :=
  { r := r, split := SplitImpl.scanLines, maxTokenSize := MaxScanTokenSize,
    token := ByteSlice.nil, buf := ByteSlice.nil, start := 0, stop := 0, err := none,
    empties := 0, scanCalled := false, done := false }

/-- Go `(*bufio.Scanner).Buffer(buf, max)`: panics once scanning has started. -/
def Scanner.Buffer (s : Scanner) (buf : ByteSlice) (max : Int) : Option Scanner :=
  if s.scanCalled then none
  else some { s with buf := buf.full, maxTokenSize := max }

/-- Go `(*bufio.Scanner).Split(split)`: panics once scanning has started. -/
def Scanner.Split (s : Scanner) (split : SplitImpl) : Option Scanner :=
  if s.scanCalled then none
  else some { s with split := split }

/-- Go `(*bufio.Scanner).Err()`: the first error met that is not `io.EOF`. -/
def Scanner.Err (s : Scanner) : Option GoError :=
  if s.err = some GoError.eof then none else s.err

/-- The constant `defaultBufSize`. -/
def defaultBufSize : Nat := 16 * 1024

/-- The struct `PositionalScanner`: a position and the embedded `*bufio.Scanner`. -/
structure PositionalScanner where
  pos : Int
  scanner : Scanner

/-- The closure `scanFunc` of `NewPositionalScanner`, with the captured `maxLogSize`,
`splitFunc` and `ps` as arguments; it returns the triple and the updated `ps`. -/
def scanFunc (maxLogSize : Int) (splitFunc : SplitFunc) (ps : PositionalScanner)
    (data : ByteSlice) (atEOF : Bool) : Option (SplitResult × PositionalScanner) :=
  let r := splitFunc data atEOF
  let out : Option SplitResult :=
    if (r.advance = 0 ∧ r.token = ByteSlice.nil ∧ r.err = none) ∧
        wrapInt (2 * maxLogSize) ≤ data.len then
      (data.sliceTo maxLogSize).map fun t => { advance := maxLogSize, token := t, err := none }
    else if maxLogSize < r.token.len then
      (r.token.sliceTo maxLogSize).map fun t =>
        { advance := maxLogSize, token := t, err := r.err }
    else some r
  out.map fun o => (o, { ps with pos := wrapInt (ps.pos + o.advance) })

/-- The function `NewPositionalScanner`. -/
def NewPositionalScanner (r : Reader) (maxLogSize : Int) (startOffset : Int)
    (splitFunc : SplitFunc) : Option PositionalScanner :=
  let buf := ByteSlice.make0 defaultBufSize
  ((NewScanner r).Buffer buf (wrapInt (maxLogSize * 2))).bind fun s1 =>
    (s1.Split (SplitImpl.scanFunc maxLogSize splitFunc)).map fun s2 =>
      { pos := startOffset, scanner := s2 }

/-- The method `Pos`. -/
def PositionalScanner.Pos (ps : PositionalScanner) : Int := ps.pos

/-- The method `getError`. -/
def PositionalScanner.getError (ps : PositionalScanner) : Option GoError :=
  let err := ps.scanner.Err
  if errorsIs err GoError.errTooLong then
    some (NewError "log entry too large"
      "increase max_log_size or ensure that multiline regex patterns terminate")
  else
    match err with
    | some e => some (Wrap e "scanner error")
    | none => none

/-- A finite sequence of invocations of the wrapped split function, each with the buffer,
the end-of-input flag and the behaviour of the strategy at that invocation (a strategy may
keep state between calls). The results are listed in order. -/
def scanCalls (maxLogSize : Int) (ps : PositionalScanner) :
    List (SplitFunc × ByteSlice × Bool) → Option (List SplitResult × PositionalScanner)
  | [] => some ([], ps)
  | (splitFunc, data, atEOF) :: rest =>
    match scanFunc maxLogSize splitFunc ps data atEOF with
    | none => none
    | some (o, ps1) =>
      (scanCalls maxLogSize ps1 rest).map fun p => (o :: p.1, p.2)

/-- The sum of the advances of a list of results. -/
def sumAdvance (outs : List SplitResult) : Int := (outs.map fun o => o.advance).sum

/-- The error `err` is `target` or wraps it: `target` is reached from `err` by following
causes. -/
inductive GoError.IsOrWraps (target : GoError) : GoError → Prop where
  | same : GoError.IsOrWraps target target
  | wrap (msg : String) {cause : GoError} :
    GoError.IsOrWraps target cause → GoError.IsOrWraps target (GoError.wrapping msg cause)

/-! ## Sample inputs -/

/-- A positional scanner at position `pos` over an empty reader, before any scan. -/
def freshAt (pos : Int) : PositionalScanner := { pos := pos, scanner := NewScanner [] }

/-- A strategy that answers `r` on every buffer. -/
def constStrategy (r : SplitResult) : SplitFunc := fun _ _ => r

/-- A strategy that waits for a line feed: it answers "need more data" until the buffer
holds one, then the line without its line feed, advancing past the line feed. -/
def lineStrategy : SplitFunc := fun data _ =>
  match data.toList.indexOf? (10 : Byte) with
  | some i =>
    { advance := (i : Int) + 1,
      token := ByteSlice.mk (data.toList.take i) (data.backing.drop i), err := none }
  | none => { advance := 0, token := ByteSlice.nil, err := none }

/-- The buffer `"aaaaaaaaaa"` (ten bytes, no line feed), without spare capacity. -/
def tenLetters : ByteSlice := ByteSlice.mk (List.replicate 10 97) []

/-- The buffer `"abcdefgh\n"`, without spare capacity. -/
def eightAndNewline : ByteSlice :=
  ByteSlice.mk [97, 98, 99, 100, 101, 102, 103, 104, 10] []

/-- The eight bytes `"abcdefgh"`. -/
def eightBytes : ByteSlice := ByteSlice.mk [97, 98, 99, 100, 101, 102, 103, 104] []

/-- A strategy that returns the eight-byte token `"abcdefgh"` with advance 8. -/
def eightStrategy : SplitFunc :=
  constStrategy { advance := 8, token := eightBytes, err := none }

/-- A strategy that returns the eight-byte token `"abcdefgh"` with advance 3. -/
def longTokenStrategy : SplitFunc :=
  constStrategy { advance := 3, token := eightBytes, err := none }

/-- The two invocations in a row: a forced split of `"aaaaaaaaaa"` and a
truncated eight-byte token. -/
def sampleCalls : List (SplitFunc × ByteSlice × Bool) :=
  [(lineStrategy, tenLetters, false), (eightStrategy, eightBytes, false)]

/-- The buffer `"abc"`, without spare capacity. -/
def threeBytes : ByteSlice := ByteSlice.mk [97, 98, 99] []

/-! ## Scanning

The loop of `(*bufio.Scanner).Scan` of the Go standard library, which drives the split
function installed by `NewPositionalScanner`, its default split function `bufio.ScanLines`,
and a reader in the manner of `strings.Reader`. -/

/-- Go `s[lo:hi]`: panics (`none`) unless `0 ≤ lo ≤ hi ≤ cap(s)`. -/
def ByteSlice.slice (s : ByteSlice) (lo hi : Int) : Option ByteSlice :=
  if lo < 0 ∨ hi < lo ∨ s.cap < hi then none
  else
    match s with
    | ByteSlice.nil => some ByteSlice.nil
    | ByteSlice.mk elems spare =>
      some (ByteSlice.mk (((elems ++ spare).take hi.toNat).drop lo.toNat)
        ((elems ++ spare).drop hi.toNat))

/-- Go `copy(dst[pos:], src)`: the bytes of `src` that fit overwrite `dst` from index
`pos` on. -/
def ByteSlice.writeAt (dst : ByteSlice) (pos : Nat) (src : List Byte) : ByteSlice :=
  match dst with
  | ByteSlice.nil => ByteSlice.nil
  | ByteSlice.mk elems spare =>
    ByteSlice.mk (elems.take pos ++ src.take (elems.length - pos) ++
      elems.drop (pos + min src.length (elems.length - pos))) spare

/-- The token as a caller reads it: `none` for the nil slice, else its bytes. -/
def ByteSlice.bytes? : ByteSlice → Option (List Byte)
  | ByteSlice.nil => none
  | ByteSlice.mk elems _ => some elems

/-- Go `bufio.dropCR`: drop a final carriage return. -/
def dropCR (data : ByteSlice) : ByteSlice :=
  match data with
  | ByteSlice.nil => ByteSlice.nil
  | ByteSlice.mk elems spare =>
    if elems.getLast? = some (13 : Byte) then
      ByteSlice.mk elems.dropLast ((elems ++ spare).drop (elems.length - 1))
    else data

/-- Modelled from the spec: the newline-splitting strategy of the repository is not among
the sources; Go's `bufio.ScanLines`, the default split function of a `bufio.Scanner`,
stands for it: a line up to a line feed, without the line feed and a carriage return
before it; at the end of the input the last, unterminated line. -/
def ScanLines : SplitFunc := fun data atEOF =>
  if atEOF = true ∧ data.len = 0 then { advance := 0, token := ByteSlice.nil, err := none }
  else
    match data.toList.indexOf? (10 : Byte) with
    | some i =>
      { advance := (i : Int) + 1,
        token := dropCR (ByteSlice.mk (data.toList.take i) (data.backing.drop i)),
        err := none }
    | none =>
      if atEOF then { advance := data.len, token := dropCR data, err := none }
      else { advance := 0, token := ByteSlice.nil, err := none }

/-- A `Read(p)` with `len(p) = k` on a reader that behaves like `strings.Reader`: it
delivers as many of its remaining bytes as fit, and `io.EOF` once none remain. The
result is the bytes read, the error and the reader afterwards. -/
def Reader.Read (r : Reader) (k : Nat) : List Byte × Option GoError × Reader :=
  if r.isEmpty then ([], some GoError.eof, r) else (r.take k, none, r.drop k)

/-- Go `bufio.ErrFinalToken`. -/
def ErrFinalToken : GoError := GoError.errFinalToken

/-- Go `bufio.ErrNegativeAdvance`. -/
def ErrNegativeAdvance : GoError :=
  GoError.plain "bufio.Scanner: SplitFunc returns negative advance count"

/-- Go `bufio.ErrAdvanceTooFar`. -/
def ErrAdvanceTooFar : GoError :=
  GoError.plain "bufio.Scanner: SplitFunc returns advance count beyond input"

/-- Go `io.ErrNoProgress`. -/
def ErrNoProgress : GoError := GoError.plain "multiple Read calls return no data or error"

/-- Go `bufio.startBufSize`. -/
def startBufSize : Int := 4096

/-- Go `bufio.maxConsecutiveEmptyReads`. -/
def maxConsecutiveEmptyReads : Int := 100

/-- Go `(*bufio.Scanner).setErr`: record the first error that is not `io.EOF`. -/
def Scanner.setErr (s : Scanner) (err : GoError) : Scanner :=
  if s.err = none ∨ s.err = some GoError.eof then { s with err := some err } else s

/-- Go `(*bufio.Scanner).Bytes`. -/
def Scanner.Bytes (s : Scanner) : ByteSlice := s.token

/-- A call of the split function held by the scanner; the closure `scanFunc` updates the
position. -/
def PositionalScanner.callSplit (ps : PositionalScanner) (data : ByteSlice) (atEOF : Bool) :
    Option (SplitResult × PositionalScanner) :=
  match ps.scanner.split with
  | SplitImpl.scanLines => some (ScanLines data atEOF, ps)
  | SplitImpl.scanFunc maxLogSize splitFunc => scanFunc maxLogSize splitFunc ps data atEOF

/-- How the first half of a turn of the loop of `Scan` ends. -/
inductive Turn where
  /-- `Scan` returns `ok`. -/
  | ret (ok : Bool) (ps : PositionalScanner) : Turn
  /-- No token yet: more data is needed. -/
  | more (ps : PositionalScanner) : Turn
  /-- A run-time panic. -/
  | panic : Turn

/-- First half of a turn of the loop of `Scan`: when the buffer holds data, or the input
has ended, call the split function on `s.buf[s.start:s.end]` and act on its result. -/
def PositionalScanner.trySplit (ps : PositionalScanner) : Turn :=
  let s := ps.scanner
  if s.start < s.stop ∨ s.err ≠ none then
    match s.buf.slice s.start s.stop with
    | none => Turn.panic
    | some data =>
      match ps.callSplit data (decide (s.err ≠ none)) with
      | none => Turn.panic
      | some (r, ps1) =>
        let s1 := ps1.scanner
        match r.err with
        | some e =>
          if e = ErrFinalToken then
            Turn.ret (decide (r.token ≠ ByteSlice.nil))
              { ps1 with scanner := { s1 with token := r.token, done := true } }
          else Turn.ret false { ps1 with scanner := s1.setErr e }
        | none =>
          if r.advance < 0 then
            Turn.ret false { ps1 with scanner := s1.setErr ErrNegativeAdvance }
          else if s1.stop - s1.start < r.advance then
            Turn.ret false { ps1 with scanner := s1.setErr ErrAdvanceTooFar }
          else
            let s2 := { s1 with start := s1.start + r.advance, token := r.token }
            if r.token ≠ ByteSlice.nil then
              if s2.err = none ∨ 0 < r.advance then
                Turn.ret true { ps1 with scanner := { s2 with empties := 0 } }
              else if maxConsecutiveEmptyReads < s2.empties + 1 then Turn.panic
              else Turn.ret true { ps1 with scanner := { s2 with empties := s2.empties + 1 } }
            else Turn.more { ps1 with scanner := s2 }
  else Turn.more ps

/-- The reading step of `Scan`: read into `s.buf[s.end:len(s.buf)]`. A read of no bytes
without an error is repeated by `Scan`; with this reader every repetition gives the same,
so it ends in `io.ErrNoProgress`. -/
def Scanner.read (s : Scanner) : Scanner :=
  match Reader.Read s.r (s.buf.len - s.stop).toNat with
  | (chunk, err, r1) =>
    let s1 := { s with r := r1, buf := s.buf.writeAt s.stop.toNat chunk,
                       stop := s.stop + (chunk.length : Int) }
    match err with
    | some e => s1.setErr e
    | none => if 0 < chunk.length then { s1 with empties := 0 } else s1.setErr ErrNoProgress

/-- Second half of a turn of the loop of `Scan`: shift the data to the beginning of
the buffer when space is needed, grow a full buffer up to `maxTokenSize`, and read. The
flag tells that the buffer could not grow (`bufio.ErrTooLong`) and `Scan` returns. -/
def Scanner.fill (s : Scanner) : Bool × Scanner :=
  let s1 :=
    if 0 < s.start ∧ (s.stop = s.buf.len ∨ s.buf.len / 2 < s.start) then
      { s with buf := s.buf.writeAt 0 ((s.buf.toList.take s.stop.toNat).drop s.start.toNat),
               stop := s.stop - s.start, start := 0 }
    else s
  if s1.stop = s1.buf.len then
    if s1.maxTokenSize ≤ s1.buf.len ∨ intMax / 2 < s1.buf.len then
      (true, s1.setErr GoError.errTooLong)
    else
      let doubled := s1.buf.len * 2
      let wanted := if doubled = 0 then startBufSize else doubled
      let newSize := if s1.maxTokenSize < wanted then s1.maxTokenSize else wanted
      let newBuf := (ByteSlice.mk (List.replicate newSize.toNat 0) []).writeAt 0
        ((s1.buf.toList.take s1.stop.toNat).drop s1.start.toNat)
      (false, Scanner.read { s1 with buf := newBuf, stop := s1.stop - s1.start, start := 0 })
  else (false, Scanner.read s1)

/-- The loop of `Scan`, for at most the given number of turns; `none` is a run-time
panic (or no turn left). -/
def scanLoop : Nat → PositionalScanner → Option (Bool × PositionalScanner)
  | 0, _ => none
  | fuel + 1, ps =>
    match ps.trySplit with
    | Turn.panic => none
    | Turn.ret ok ps1 => some (ok, ps1)
    | Turn.more ps1 =>
      if ps1.scanner.err ≠ none then
        some (false, { ps1 with scanner := { ps1.scanner with start := 0, stop := 0 } })
      else
        match ps1.scanner.fill with
        | (true, s2) => some (false, { ps1 with scanner := s2 })
        | (false, s2) => scanLoop fuel { ps1 with scanner := s2 }

/-- Go `(*bufio.Scanner).Scan` on the embedded scanner. A turn of the loop that does not
return reads at least one byte or records an error, after which the next turn returns:
the number of turns is at most the number of bytes left in the reader plus two. -/
def PositionalScanner.Scan (ps : PositionalScanner) : Option (Bool × PositionalScanner) :=
  if ps.scanner.done then some (false, ps)
  else
    scanLoop (ps.scanner.r.length + 2)
      { ps with scanner := { ps.scanner with scanCalled := true } }

/-- What the caller observes after a `Scan`: its result, the token (`none` for no
token), `Pos()` and `getError()`. -/
structure Observation where
  ok : Bool
  token : Option (List Byte)
  pos : Int
  err : Option GoError
  deriving DecidableEq, Repr

/-- The observation after a `Scan` that returned `ok`. -/
def PositionalScanner.observe (ok : Bool) (ps : PositionalScanner) : Observation :=
  { ok := ok, token := ps.scanner.Bytes.bytes?, pos := ps.Pos, err := ps.getError }

/-- The observations of the given number of calls of `Scan` in a row. -/
def scanTimes : Nat → PositionalScanner → Option (List Observation)
  | 0, _ => some []
  | n + 1, ps =>
    match ps.Scan with
    | none => none
    | some (ok, ps1) => (scanTimes n ps1).map fun l => ps1.observe ok :: l

/-- The stream `"ab\ncdef\n"`. -/
def twoLines : Reader := [97, 98, 10, 99, 100, 101, 102, 10]

/-- A strategy that returns the eight-byte token `"abcdefgh"` with advance 8 and an
error. -/
def failingStrategy : SplitFunc :=
  constStrategy { advance := 8, token := eightBytes, err := some (GoError.plain "failed") }

/-! ## Arithmetic of the machine integers -/

theorem wrapInt_of_inRange {x : Int} (h : InRange x) : wrapInt x = x := by
  unfold InRange intMin intMax at h
  unfold wrapInt
  omega

theorem wrapInt_inRange (x : Int) : InRange (wrapInt x) := by
  unfold InRange intMin intMax wrapInt
  omega

theorem wrapInt_add_left (a b : Int) : wrapInt (wrapInt a + b) = wrapInt (a + b) := by
  unfold wrapInt
  omega

/-! ## Slicing -/

theorem ByteSlice.len_nonneg (s : ByteSlice) : 0 ≤ s.len := by
  unfold ByteSlice.len
  exact Int.ofNat_nonneg _

theorem ByteSlice.len_le_cap (s : ByteSlice) : s.len ≤ s.cap := by
  cases s with
  | nil => simp [ByteSlice.len, ByteSlice.cap, ByteSlice.toList, ByteSlice.backing]
  | mk elems spare =>
    simp [ByteSlice.len, ByteSlice.cap, ByteSlice.toList, ByteSlice.backing]

theorem ByteSlice.nil_of_len_pos {s : ByteSlice} (h : 0 < s.len) : s ≠ ByteSlice.nil := by
  intro hs
  subst hs
  simp [ByteSlice.len, ByteSlice.toList] at h

/-- Slicing succeeds exactly within the capacity. -/
theorem ByteSlice.sliceTo_isSome (s : ByteSlice) (n : Int) :
    (s.sliceTo n).isSome = true ↔ 0 ≤ n ∧ n ≤ s.cap := by
  unfold ByteSlice.sliceTo
  by_cases h : n < 0 ∨ s.cap < n
  · simp only [h, if_true]
    constructor
    · intro hf; simp at hf
    · intro hc; omega
  · simp only [h, if_false]
    cases s <;> simp <;> omega

/-- The slice `s[:n]`, whenever it exists, has length `n`. -/
theorem ByteSlice.sliceTo_len {s t : ByteSlice} {n : Int} (h : s.sliceTo n = some t) :
    t.len = n := by
  unfold ByteSlice.sliceTo at h
  by_cases hc : n < 0 ∨ s.cap < n
  · simp [hc] at h
  · simp only [hc, if_false] at h
    cases s with
    | nil =>
      simp at h
      subst h
      simp [ByteSlice.cap, ByteSlice.backing] at hc
      simp [ByteSlice.len, ByteSlice.toList]
      omega
    | mk elems spare =>
      simp at h
      subst h
      simp [ByteSlice.cap, ByteSlice.backing] at hc
      simp [ByteSlice.len, ByteSlice.toList]
      omega

/-- Within the length, `s[:n]` exists and shows the first `n` elements of `s`. -/
theorem ByteSlice.sliceTo_of_le_len (s : ByteSlice) {n : Int} (h0 : 0 ≤ n) (h : n ≤ s.len) :
    ∃ t, s.sliceTo n = some t ∧ t.toList = s.toList.take n.toNat := by
  have hcap := s.len_le_cap
  unfold ByteSlice.sliceTo
  have hc : ¬ (n < 0 ∨ s.cap < n) := by omega
  simp only [hc, if_false]
  cases s with
  | nil => exact ⟨ByteSlice.nil, rfl, by simp [ByteSlice.toList]⟩
  | mk elems spare =>
    refine ⟨_, rfl, ?_⟩
    simp only [ByteSlice.toList]
    simp only [ByteSlice.len, ByteSlice.toList] at h
    rw [List.take_append_of_le_length]
    omega

/-! ## The three branches of `scanFunc` -/

/-- The stalled branch: the strategy asks for more data and the buffer is full. -/
theorem scanFunc_stalled {maxLogSize : Int} {splitFunc : SplitFunc} {ps : PositionalScanner}
    {data t : ByteSlice} {atEOF : Bool}
    (hr : splitFunc data atEOF = { advance := 0, token := ByteSlice.nil, err := none })
    (hlen : wrapInt (2 * maxLogSize) ≤ data.len) (ht : data.sliceTo maxLogSize = some t) :
    scanFunc maxLogSize splitFunc ps data atEOF =
      some ({ advance := maxLogSize, token := t, err := none },
        { ps with pos := wrapInt (ps.pos + maxLogSize) }) := by
  simp [scanFunc, hr, hlen, ht]

/-- The oversized branch: the strategy returns a token longer than `maxLogSize`. -/
theorem scanFunc_oversized {maxLogSize : Int} {splitFunc : SplitFunc}
    {ps : PositionalScanner} {data t : ByteSlice} {atEOF : Bool} (h0 : 0 ≤ maxLogSize)
    (hlen : maxLogSize < (splitFunc data atEOF).token.len)
    (ht : (splitFunc data atEOF).token.sliceTo maxLogSize = some t) :
    scanFunc maxLogSize splitFunc ps data atEOF =
      some ({ advance := maxLogSize, token := t, err := (splitFunc data atEOF).err },
        { ps with pos := wrapInt (ps.pos + maxLogSize) }) := by
  have hne : (splitFunc data atEOF).token ≠ ByteSlice.nil :=
    ByteSlice.nil_of_len_pos (lt_of_le_of_lt h0 hlen)
  simp [scanFunc, hne, hlen, ht]

/-- The transparent branch: neither stalled nor oversized. -/
theorem scanFunc_transparent {maxLogSize : Int} {splitFunc : SplitFunc}
    {ps : PositionalScanner} {data : ByteSlice} {atEOF : Bool}
    (hns : ¬ (((splitFunc data atEOF).advance = 0 ∧
      (splitFunc data atEOF).token = ByteSlice.nil ∧ (splitFunc data atEOF).err = none) ∧
      wrapInt (2 * maxLogSize) ≤ data.len))
    (hlen : (splitFunc data atEOF).token.len ≤ maxLogSize) :
    scanFunc maxLogSize splitFunc ps data atEOF =
      some (splitFunc data atEOF,
        { ps with pos := wrapInt (ps.pos + (splitFunc data atEOF).advance) }) := by
  have hlen' : ¬ maxLogSize < (splitFunc data atEOF).token.len := not_lt.mpr hlen
  unfold scanFunc
  simp only [hns, hlen', if_false, Option.map_some']

/-- Whatever `scanFunc` returns, the position it leaves is the position before plus the
advance it returns, in 64-bit arithmetic, and nothing else of the scanner changes. -/
theorem scanFunc_pos {maxLogSize : Int} {splitFunc : SplitFunc} {ps ps1 : PositionalScanner}
    {data : ByteSlice} {atEOF : Bool} {o : SplitResult}
    (h : scanFunc maxLogSize splitFunc ps data atEOF = some (o, ps1)) :
    ps1 = { ps with pos := wrapInt (ps.pos + o.advance) } := by
  unfold scanFunc at h
  simp only [Option.map_eq_some'] at h
  obtain ⟨o1, _, h2⟩ := h
  simp only [Prod.mk.injEq] at h2
  obtain ⟨h3, h4⟩ := h2
  subst h3
  exact h4.symm

/-! ## Truncation -/

/-- C1: with `maxLogSize = M ≥ 0`, when the strategy returns a token longer than `M`, the
wrapped split function returns, and the token it emits has length exactly `M` and is the
first `M` bytes of the strategy's token. -/
theorem scanFunc_oversized_token_prefix (M : Int) (splitFunc : SplitFunc)
    (ps : PositionalScanner) (data : ByteSlice) (atEOF : Bool) (hM : 0 ≤ M)
    (hlen : M < (splitFunc data atEOF).token.len) :
    ∃ o ps1, scanFunc M splitFunc ps data atEOF = some (o, ps1) ∧ o.token.len = M ∧
      o.token.toList = (splitFunc data atEOF).token.toList.take M.toNat := by
  obtain ⟨t, ht, htl⟩ := (splitFunc data atEOF).token.sliceTo_of_le_len hM (le_of_lt hlen)
  exact ⟨_, _, scanFunc_oversized hM hlen ht, ByteSlice.sliceTo_len ht, htl⟩

/-- C1, at the eight-byte token `"abcdefgh"` with `maxLogSize = 5`. -/
theorem scanFunc_oversized_token_prefix_witness :
    ∃ o ps1, scanFunc 5 lineStrategy (freshAt 0) eightAndNewline false = some (o, ps1) ∧
      o.token.len = 5 ∧
      o.token.toList = (lineStrategy eightAndNewline false).token.toList.take (5 : Int).toNat :=
  scanFunc_oversized_token_prefix 5 lineStrategy (freshAt 0) eightAndNewline false
    (by decide) (by decide)

/-- C2 fails on the position: from the starting offset `math.MaxInt64`, with
`maxLogSize = 5 > 0` and the ten-byte buffer `"aaaaaaaaaa"`, the strategy answers
`(0, nil, nil)`, the wrapped split function returns advance 5, and `Pos()` goes from
`math.MaxInt64` to `math.MinInt64 + 4`: it has not increased by 5. -/
theorem scanFunc_forced_split_counterexample :
    (0 : Int) < 5 ∧ 2 * 5 ≤ tenLetters.len ∧
      lineStrategy tenLetters false =
        { advance := 0, token := ByteSlice.nil, err := none } ∧
      ((NewPositionalScanner [] 5 intMax lineStrategy).bind fun ps =>
        (scanFunc 5 lineStrategy ps tenLetters false).map fun p =>
          (p.1.advance, ps.Pos, p.2.Pos)) = some (5, intMax, intMin + 4) ∧
      intMin + 4 ≠ intMax + 5 := by
  decide

/-- C2, amended: with `maxLogSize = M > 0` and a buffer of at least `2 * M` bytes, when
the strategy answers `(0, nil, nil)` the wrapped split function returns advance `M`, the
token `data[:M]` (of length exactly `M`, the first `M` bytes of the buffer) and a nil
error; `Pos()` becomes `Pos() + M` in `int64` arithmetic, so it increases by exactly `M`
provided `Pos() + M` is representable as an `int64`. -/
theorem scanFunc_forced_split (M : Int) (splitFunc : SplitFunc) (ps : PositionalScanner)
    (data : ByteSlice) (atEOF : Bool) (hM : 0 < M) (hlen : 2 * M ≤ data.len)
    (hr : splitFunc data atEOF = { advance := 0, token := ByteSlice.nil, err := none }) :
    ∃ t ps1, data.sliceTo M = some t ∧ t.len = M ∧ t.toList = data.toList.take M.toNat ∧
      scanFunc M splitFunc ps data atEOF =
        some ({ advance := M, token := t, err := none }, ps1) ∧
      ps1.Pos = wrapInt (ps.Pos + M) ∧ (InRange (ps.Pos + M) → ps1.Pos = ps.Pos + M) := by
  obtain ⟨t, ht, htl⟩ := data.sliceTo_of_le_len (le_of_lt hM) (by omega : M ≤ data.len)
  have hw : wrapInt (2 * M) ≤ data.len := by
    unfold wrapInt
    omega
  refine ⟨t, _, ht, ByteSlice.sliceTo_len ht, htl, scanFunc_stalled hr hw ht, rfl, ?_⟩
  intro hin
  exact wrapInt_of_inRange hin

/-- C2 amended, at the buffer `"aaaaaaaaaa"` with `maxLogSize = 5` and position 0: the token is
`"aaaaa"`, the advance 5 and the position becomes 5. -/
theorem scanFunc_forced_split_witness :
    ∃ t ps1, tenLetters.sliceTo 5 = some t ∧ t.len = 5 ∧
      t.toList = tenLetters.toList.take (5 : Int).toNat ∧
      scanFunc 5 lineStrategy (freshAt 0) tenLetters false =
        some ({ advance := 5, token := t, err := none }, ps1) ∧
      ps1.Pos = wrapInt ((freshAt 0).Pos + 5) ∧
      (InRange ((freshAt 0).Pos + 5) → ps1.Pos = (freshAt 0).Pos + 5) :=
  scanFunc_forced_split 5 lineStrategy (freshAt 0) tenLetters false (by decide) (by decide)
    (by decide)

/-- C3 fails: on the buffer `"abcdefgh\n"` the strategy returns the eight-byte token with
advance 9; with `maxLogSize = 5 > 0` the token is longer than 5 and the wrapped split
function reports advance 5, not the strategy's 9. -/
theorem scanFunc_oversized_advance_counterexample :
    (0 : Int) < 5 ∧ 5 < (lineStrategy eightAndNewline false).token.len ∧
      (lineStrategy eightAndNewline false).advance = 9 ∧
      (scanFunc 5 lineStrategy (freshAt 0) eightAndNewline false).map
        (fun p => p.1.advance) = some 5 := by
  decide

/-- C3, amended: with `maxLogSize = M > 0`, when the strategy returns a token longer than
`M`, the advance the wrapped split function reports is `M`, whatever advance the strategy
computed. -/
theorem scanFunc_oversized_advance (M : Int) (splitFunc : SplitFunc)
    (ps : PositionalScanner) (data : ByteSlice) (atEOF : Bool) (hM : 0 < M)
    (hlen : M < (splitFunc data atEOF).token.len) :
    ∃ o ps1, scanFunc M splitFunc ps data atEOF = some (o, ps1) ∧ o.advance = M := by
  obtain ⟨t, ht, _⟩ :=
    (splitFunc data atEOF).token.sliceTo_of_le_len (le_of_lt hM) (le_of_lt hlen)
  exact ⟨_, _, scanFunc_oversized (le_of_lt hM) hlen ht, rfl⟩

/-- C3 amended, at the eight-byte token with advance 9 and `maxLogSize = 5`. -/
theorem scanFunc_oversized_advance_witness :
    ∃ o ps1, scanFunc 5 lineStrategy (freshAt 0) eightAndNewline false = some (o, ps1) ∧
      o.advance = 5 :=
  scanFunc_oversized_advance 5 lineStrategy (freshAt 0) eightAndNewline false (by decide)
    (by decide)

/-- C4 fails: a strategy returns the eight-byte token `"abcdefgh"` with advance 8; with
`maxLogSize = 5` and the position at 0, the position after the call is 5, not 8. -/
theorem scanFunc_pos_strategy_advance_counterexample :
    (eightStrategy eightBytes false).token
        ≠ ByteSlice.nil ∧
      (eightStrategy eightBytes false).advance
        = 8 ∧
      (scanFunc 5 eightStrategy
        (freshAt 0) eightBytes false).map (fun p => p.2.Pos) = some 5 ∧
      (freshAt 0).Pos + 8 ≠ 5 := by
  decide

/-- C4, amended: with `maxLogSize = M ≥ 0`, when the strategy returns a token the wrapped
split function returns, and `Pos()` after the call is `Pos()` before the call plus the
advance the wrapped split function returns (an `int64` addition, exact whenever the sum is
representable): the strategy's advance when the token is not longer than `M`, and `M` when
the token was truncated. -/
theorem scanFunc_pos_returned_advance (M : Int) (splitFunc : SplitFunc)
    (ps : PositionalScanner) (data : ByteSlice) (atEOF : Bool) (hM : 0 ≤ M)
    (htok : (splitFunc data atEOF).token ≠ ByteSlice.nil) :
    ∃ o ps1, scanFunc M splitFunc ps data atEOF = some (o, ps1) ∧
      o.advance = (if M < (splitFunc data atEOF).token.len then M
        else (splitFunc data atEOF).advance) ∧
      ps1.Pos = wrapInt (ps.Pos + o.advance) ∧
      (InRange (ps.Pos + o.advance) → ps1.Pos = ps.Pos + o.advance) := by
  by_cases hlen : M < (splitFunc data atEOF).token.len
  · obtain ⟨t, ht, _⟩ := (splitFunc data atEOF).token.sliceTo_of_le_len hM (le_of_lt hlen)
    refine ⟨_, _, scanFunc_oversized hM hlen ht, by simp [hlen], rfl, ?_⟩
    intro hin
    exact wrapInt_of_inRange hin
  · have hns : ¬ (((splitFunc data atEOF).advance = 0 ∧
        (splitFunc data atEOF).token = ByteSlice.nil ∧ (splitFunc data atEOF).err = none) ∧
        wrapInt (2 * M) ≤ data.len) := fun h => htok h.1.2.1
    refine ⟨_, _, scanFunc_transparent hns (not_lt.mp hlen), by simp [hlen], rfl, ?_⟩
    intro hin
    exact wrapInt_of_inRange hin

/-- C4 amended, at the eight-byte token with advance 8 and `maxLogSize = 5`. -/
theorem scanFunc_pos_returned_advance_witness :
    ∃ o ps1, scanFunc 5 eightStrategy
        (freshAt 0) eightBytes false = some (o, ps1) ∧
      o.advance = (if (5 : Int) < (eightStrategy eightBytes false).token.len then 5
        else (eightStrategy eightBytes false).advance) ∧
      ps1.Pos = wrapInt ((freshAt 0).Pos + o.advance) ∧
      (InRange ((freshAt 0).Pos + o.advance) → ps1.Pos = (freshAt 0).Pos + o.advance) :=
  scanFunc_pos_returned_advance 5
    eightStrategy (freshAt 0)
    eightBytes false (by decide) (by decide)

/-! ## Position -/

/-- With `0 ≤ maxLogSize` and `2 * maxLogSize` representable, `scanFunc` does not panic. -/
theorem scanFunc_isSome {maxLogSize : Int} (splitFunc : SplitFunc) (ps : PositionalScanner)
    (data : ByteSlice) (atEOF : Bool) (h0 : 0 ≤ maxLogSize) (h2 : 2 * maxLogSize ≤ intMax) :
    (scanFunc maxLogSize splitFunc ps data atEOF).isSome = true := by
  have hw : wrapInt (2 * maxLogSize) = 2 * maxLogSize :=
    wrapInt_of_inRange ⟨by unfold intMin; omega, h2⟩
  by_cases hs : ((splitFunc data atEOF).advance = 0 ∧
      (splitFunc data atEOF).token = ByteSlice.nil ∧ (splitFunc data atEOF).err = none) ∧
      wrapInt (2 * maxLogSize) ≤ data.len
  · have hle : maxLogSize ≤ data.len := by
      have := hs.2
      rw [hw] at this
      omega
    obtain ⟨t, ht, _⟩ := data.sliceTo_of_le_len h0 hle
    simp [scanFunc, hs, ht]
  · by_cases hlen : maxLogSize < (splitFunc data atEOF).token.len
    · obtain ⟨t, ht, _⟩ :=
        (splitFunc data atEOF).token.sliceTo_of_le_len h0 (le_of_lt hlen)
      rw [scanFunc_oversized h0 hlen ht]
      rfl
    · rw [scanFunc_transparent hs (not_lt.mp hlen)]
      rfl

/-- Along a sequence of invocations that starts at a representable position, the final
position is the starting one plus the sum of the returned advances, in 64-bit
arithmetic. -/
theorem scanCalls_pos {maxLogSize : Int} (calls : List (SplitFunc × ByteSlice × Bool)) :
    ∀ (ps ps1 : PositionalScanner) (outs : List SplitResult), InRange ps.pos →
      scanCalls maxLogSize ps calls = some (outs, ps1) →
      ps1.pos = wrapInt (ps.pos + sumAdvance outs) := by
  induction calls with
  | nil =>
    intro ps ps1 outs hin h
    simp only [scanCalls, Option.some.injEq, Prod.mk.injEq] at h
    obtain ⟨h1, h2⟩ := h
    subst h1 h2
    simp [sumAdvance, wrapInt_of_inRange hin]
  | cons c rest ih =>
    intro ps ps1 outs hin h
    obtain ⟨splitFunc, data, atEOF⟩ := c
    unfold scanCalls at h
    cases hsf : scanFunc maxLogSize splitFunc ps data atEOF with
    | none => simp [hsf] at h
    | some p =>
      obtain ⟨o, ps2⟩ := p
      simp only [hsf, Option.map_eq_some', Prod.mk.injEq] at h
      obtain ⟨q, hq, hq1, hq2⟩ := h
      have hps2 := scanFunc_pos hsf
      have hin2 : InRange ps2.pos := by
        rw [hps2]
        exact wrapInt_inRange _
      have := ih ps2 q.2 q.1 hin2 (by rw [hq])
      rw [← hq2, this, ← hq1, hps2]
      simp only [sumAdvance, List.map_cons, List.sum_cons]
      rw [wrapInt_add_left, add_assoc]

/-- With `0 ≤ maxLogSize` and `2 * maxLogSize` representable, no invocation of a sequence
panics. -/
theorem scanCalls_isSome {maxLogSize : Int} (h0 : 0 ≤ maxLogSize)
    (h2 : 2 * maxLogSize ≤ intMax) (calls : List (SplitFunc × ByteSlice × Bool)) :
    ∀ ps : PositionalScanner, (scanCalls maxLogSize ps calls).isSome = true := by
  induction calls with
  | nil => intro ps; rfl
  | cons c rest ih =>
    intro ps
    obtain ⟨splitFunc, data, atEOF⟩ := c
    unfold scanCalls
    have hsome := scanFunc_isSome splitFunc ps data atEOF h0 h2
    cases hsf : scanFunc maxLogSize splitFunc ps data atEOF with
    | none => simp [hsf] at hsome
    | some p =>
      obtain ⟨o, ps2⟩ := p
      simp only [Option.isSome_map']
      exact ih ps2

/-- The constructor never panics: it returns the scanner with the position at
`startOffset`, the buffer of `defaultBufSize` bytes, the ceiling `maxLogSize * 2` and the
wrapped split function installed. -/
theorem NewPositionalScanner_eq (r : Reader) (maxLogSize startOffset : Int)
    (splitFunc : SplitFunc) :
    NewPositionalScanner r maxLogSize startOffset splitFunc =
      some { pos := startOffset,
             scanner := { NewScanner r with
               buf := (ByteSlice.make0 defaultBufSize).full,
               maxTokenSize := wrapInt (maxLogSize * 2),
               split := SplitImpl.scanFunc maxLogSize splitFunc } } := rfl

/-- C5 fails: from the starting offset `S = math.MaxInt64`, with `maxLogSize = 5`, the two
invocations of `sampleCalls` return advances whose sum is 10, and `Pos()` ends at
`math.MinInt64 + 9`, not at `S + 10`. -/
theorem scanCalls_pos_is_offset_plus_advances_counterexample :
    InRange intMax ∧
      ((NewPositionalScanner [] 5 intMax lineStrategy).bind fun ps =>
        (scanCalls 5 ps sampleCalls).map fun p => (sumAdvance p.1, p.2.Pos)) =
        some (10, intMin + 9) ∧
      intMin + 9 ≠ intMax + 10 := by
  decide

/-- C5, amended: from a starting offset `S` (an `int64`), after any finite sequence of
invocations of the wrapped split function (any buffers, end-of-input flags and strategy
results), `Pos()` is `S` plus the sum of the advances the wrapped split function returned
in `int64` arithmetic: exactly that sum provided it is representable as an `int64`. The
invocations all return when `0 ≤ maxLogSize` and `2 * maxLogSize` is representable. -/
theorem scanCalls_pos_is_offset_plus_advances (r : Reader) (M S : Int)
    (splitFunc : SplitFunc) (calls : List (SplitFunc × ByteSlice × Bool))
    (hS : InRange S) :
    ∃ ps, NewPositionalScanner r M S splitFunc = some ps ∧
      (0 ≤ M → 2 * M ≤ intMax → (scanCalls M ps calls).isSome = true) ∧
      ∀ outs ps1, scanCalls M ps calls = some (outs, ps1) →
        ps1.Pos = wrapInt (S + sumAdvance outs) ∧
        (InRange (S + sumAdvance outs) → ps1.Pos = S + sumAdvance outs) := by
  refine ⟨_, NewPositionalScanner_eq r M S splitFunc, ?_, ?_⟩
  · intro h0 h2
    exact scanCalls_isSome h0 h2 calls _
  · intro outs ps1 h
    have hpos := scanCalls_pos calls _ ps1 outs hS h
    refine ⟨hpos, ?_⟩
    intro hin
    exact hpos.trans (wrapInt_of_inRange hin)

/-- C5 amended, from offset 100 with `maxLogSize = 5` over two truncating invocations. -/
theorem scanCalls_pos_is_offset_plus_advances_witness :
    ∃ ps, NewPositionalScanner [] 5 100 lineStrategy = some ps ∧
      ((0 : Int) ≤ 5 → 2 * (5 : Int) ≤ intMax → (scanCalls 5 ps sampleCalls).isSome = true) ∧
      ∀ outs ps1, scanCalls 5 ps sampleCalls = some (outs, ps1) →
        ps1.Pos = wrapInt (100 + sumAdvance outs) ∧
        (InRange (100 + sumAdvance outs) → ps1.Pos = 100 + sumAdvance outs) :=
  scanCalls_pos_is_offset_plus_advances [] 5 100 lineStrategy sampleCalls (by decide)

/-- C6: for every reader, `maxLogSize`, strategy and starting offset `S`,
`NewPositionalScanner` returns a scanner and `Pos()` on it, before any invocation of the
split function, is exactly `S`. -/
theorem NewPositionalScanner_pos (r : Reader) (M S : Int) (splitFunc : SplitFunc) :
    (NewPositionalScanner r M S splitFunc).map PositionalScanner.Pos = some S := rfl

/-- C7: with `maxLogSize = M ≥ 0`, for every buffer and every strategy result, a token
returned by the wrapped split function has length at most `M`; and the function does
return when `2 * M` is representable. -/
theorem scanFunc_token_len_le (M : Int) (splitFunc : SplitFunc) (ps : PositionalScanner)
    (data : ByteSlice) (atEOF : Bool) (hM : 0 ≤ M) :
    (∀ o ps1, scanFunc M splitFunc ps data atEOF = some (o, ps1) → o.token.len ≤ M) ∧
      (2 * M ≤ intMax → (scanFunc M splitFunc ps data atEOF).isSome = true) := by
  refine ⟨?_, scanFunc_isSome splitFunc ps data atEOF hM⟩
  intro o ps1 h
  by_cases hs : ((splitFunc data atEOF).advance = 0 ∧
      (splitFunc data atEOF).token = ByteSlice.nil ∧ (splitFunc data atEOF).err = none) ∧
      wrapInt (2 * M) ≤ data.len
  · cases ht : data.sliceTo M with
    | none => simp [scanFunc, hs, ht] at h
    | some t =>
      obtain ⟨hr1, hr2, hr3⟩ := hs.1
      have hr : splitFunc data atEOF =
          { advance := 0, token := ByteSlice.nil, err := none } := by
        cases hsr : splitFunc data atEOF
        rw [hsr] at hr1 hr2 hr3
        simp only at hr1 hr2 hr3
        rw [hr1, hr2, hr3]
      rw [scanFunc_stalled hr hs.2 ht] at h
      simp only [Option.some.injEq, Prod.mk.injEq] at h
      rw [← h.1]
      exact le_of_eq (ByteSlice.sliceTo_len ht)
  · by_cases hlen : M < (splitFunc data atEOF).token.len
    · obtain ⟨t, ht, _⟩ := (splitFunc data atEOF).token.sliceTo_of_le_len hM (le_of_lt hlen)
      rw [scanFunc_oversized hM hlen ht] at h
      simp only [Option.some.injEq, Prod.mk.injEq] at h
      rw [← h.1]
      exact le_of_eq (ByteSlice.sliceTo_len ht)
    · rw [scanFunc_transparent hs (not_lt.mp hlen)] at h
      simp only [Option.some.injEq, Prod.mk.injEq] at h
      rw [← h.1]
      exact not_lt.mp hlen

/-- C7, at the eight-byte token with `maxLogSize = 5`. -/
theorem scanFunc_token_len_le_witness :
    (∀ o ps1, scanFunc 5 eightStrategy (freshAt 0) eightBytes false = some (o, ps1) →
        o.token.len ≤ 5) ∧
      (2 * (5 : Int) ≤ intMax →
        (scanFunc 5 eightStrategy (freshAt 0) eightBytes false).isSome = true) :=
  scanFunc_token_len_le 5 eightStrategy (freshAt 0) eightBytes false (by decide)

/-- C8 fails: with `maxLogSize = 5 > 0` and the three-byte buffer `"abc"`, a strategy that
returns advance 3 (within `0 ≤ 3 ≤ len(data)`) and an eight-byte token makes the wrapped
split function return advance 5, more than the three bytes of the buffer. -/
theorem scanFunc_advance_le_len_counterexample :
    (0 : Int) < 5 ∧ 0 ≤ (longTokenStrategy threeBytes false).advance ∧
      (longTokenStrategy threeBytes false).advance ≤ threeBytes.len ∧
      threeBytes.len = 3 ∧
      (scanFunc 5 longTokenStrategy (freshAt 0) threeBytes false).map
        (fun p => (p.1.advance, p.2.Pos)) = some (5, 5) := by
  decide

/-- C8, amended: with `maxLogSize = M > 0` and `2 * M` representable, for every buffer
`data` and every strategy result whose advance `N` satisfies `N ≤ len(data)` (so
every `0 ≤ N ≤ len(data)`) and whose token is not longer than `data`, the wrapped split
function returns and the advance it returns (and adds to `Pos()`) is at most
`len(data)`. -/
theorem scanFunc_advance_le_len (M : Int) (splitFunc : SplitFunc) (ps : PositionalScanner)
    (data : ByteSlice) (atEOF : Bool) (hM : 0 < M) (h2 : 2 * M ≤ intMax)
    (hN : (splitFunc data atEOF).advance ≤ data.len)
    (htok : (splitFunc data atEOF).token.len ≤ data.len) :
    ∃ o ps1, scanFunc M splitFunc ps data atEOF = some (o, ps1) ∧ o.advance ≤ data.len ∧
      ps1.Pos = wrapInt (ps.Pos + o.advance) := by
  have hw : wrapInt (2 * M) = 2 * M :=
    wrapInt_of_inRange ⟨by unfold intMin; omega, h2⟩
  by_cases hs : ((splitFunc data atEOF).advance = 0 ∧
      (splitFunc data atEOF).token = ByteSlice.nil ∧ (splitFunc data atEOF).err = none) ∧
      wrapInt (2 * M) ≤ data.len
  · have hle : M ≤ data.len := by
      have := hs.2
      rw [hw] at this
      omega
    obtain ⟨t, ht, _⟩ := data.sliceTo_of_le_len (le_of_lt hM) hle
    obtain ⟨hr1, hr2, hr3⟩ := hs.1
    have hr : splitFunc data atEOF =
        { advance := 0, token := ByteSlice.nil, err := none } := by
      cases hsr : splitFunc data atEOF
      rw [hsr] at hr1 hr2 hr3
      simp only at hr1 hr2 hr3
      rw [hr1, hr2, hr3]
    exact ⟨_, _, scanFunc_stalled hr hs.2 ht, hle, rfl⟩
  · by_cases hlen : M < (splitFunc data atEOF).token.len
    · obtain ⟨t, ht, _⟩ :=
        (splitFunc data atEOF).token.sliceTo_of_le_len (le_of_lt hM) (le_of_lt hlen)
      exact ⟨_, _, scanFunc_oversized (le_of_lt hM) hlen ht, by simp only; omega, rfl⟩
    · exact ⟨_, _, scanFunc_transparent hs (not_lt.mp hlen), hN, rfl⟩

/-- C8 amended, at `"abcdefgh\n"` with the line strategy and `maxLogSize = 5`. -/
theorem scanFunc_advance_le_len_witness :
    ∃ o ps1, scanFunc 5 lineStrategy (freshAt 0) eightAndNewline false = some (o, ps1) ∧
      o.advance ≤ eightAndNewline.len ∧ ps1.Pos = wrapInt ((freshAt 0).Pos + o.advance) :=
  scanFunc_advance_le_len 5 lineStrategy (freshAt 0) eightAndNewline false (by decide)
    (by decide) (by decide) (by decide)

/-! ## Construction -/

/-- With a negative `maxLogSize` every invocation of the wrapped split function panics on
a slice bound. -/
theorem scanFunc_negative {maxLogSize : Int} (hneg : maxLogSize < 0) (splitFunc : SplitFunc)
    (ps : PositionalScanner) (data : ByteSlice) (atEOF : Bool) :
    scanFunc maxLogSize splitFunc ps data atEOF = none := by
  have hsl : ∀ s : ByteSlice, s.sliceTo maxLogSize = none := by
    intro s
    unfold ByteSlice.sliceTo
    simp [hneg]
  have hlen : maxLogSize < (splitFunc data atEOF).token.len :=
    lt_of_lt_of_le hneg (ByteSlice.len_nonneg _)
  unfold scanFunc
  simp only [hsl, hlen, if_true, Option.map_none', ite_self]

/-- C9 fails: with `maxLogSize = 0` (and likewise `-1`) the constructor returns a
scanner; nothing is reported. -/
theorem NewPositionalScanner_nonpositive_counterexample :
    (0 : Int) ≤ 0 ∧ (NewPositionalScanner [] 0 0 lineStrategy).isSome = true ∧
      (NewPositionalScanner [] (-1) 0 lineStrategy).isSome = true := by
  decide

/-- C9, amended: for every `maxLogSize`, the non-positive ones included, the constructor
reports nothing and returns a scanner, with `Pos()` at the starting offset and the buffer
ceiling `maxLogSize * 2`; a negative `maxLogSize` shows only later, when every invocation
of the wrapped split function panics on a slice bound. -/
theorem NewPositionalScanner_total (r : Reader) (M S : Int) (splitFunc : SplitFunc) :
    ∃ ps, NewPositionalScanner r M S splitFunc = some ps ∧ ps.Pos = S ∧
      ps.scanner.maxTokenSize = wrapInt (M * 2) ∧
      (M < 0 → ∀ (ps1 : PositionalScanner) (data : ByteSlice) (atEOF : Bool),
        scanFunc M splitFunc ps1 data atEOF = none) :=
  ⟨_, NewPositionalScanner_eq r M S splitFunc, rfl, rfl,
    fun hneg ps1 data atEOF => scanFunc_negative hneg splitFunc ps1 data atEOF⟩

/-! ## Error classification -/

/-- The chain walk of `errors.Is` finds `target` exactly in the errors that are `target`
or wrap it. -/
theorem GoError.is_iff (target : GoError) (e : GoError) :
    e.is target = true ↔ GoError.IsOrWraps target e := by
  induction e with
  | wrapping msg cause ih =>
    simp only [GoError.is, Bool.or_eq_true, decide_eq_true_eq]
    constructor
    · rintro (h | h)
      · rw [h]; exact GoError.IsOrWraps.same
      · exact GoError.IsOrWraps.wrap msg (ih.mp h)
    · intro h
      cases h with
      | same => exact Or.inl rfl
      | wrap _ hc => exact Or.inr (ih.mpr hc)
  | errTooLong =>
    simp only [GoError.is, decide_eq_true_eq]
    constructor
    · intro h; rw [← h]; exact GoError.IsOrWraps.same
    · intro h; cases h; rfl
  | eof =>
    simp only [GoError.is, decide_eq_true_eq]
    constructor
    · intro h; rw [← h]; exact GoError.IsOrWraps.same
    · intro h; cases h; rfl
  | errFinalToken =>
    simp only [GoError.is, decide_eq_true_eq]
    constructor
    · intro h; rw [← h]; exact GoError.IsOrWraps.same
    · intro h; cases h; rfl
  | plain msg =>
    simp only [GoError.is, decide_eq_true_eq]
    constructor
    · intro h; rw [← h]; exact GoError.IsOrWraps.same
    · intro h; cases h; rfl
  | agentNew d g =>
    simp only [GoError.is, decide_eq_true_eq]
    constructor
    · intro h; rw [← h]; exact GoError.IsOrWraps.same
    · intro h; cases h; rfl
  | agentWrap err d _ =>
    simp only [GoError.is, decide_eq_true_eq]
    constructor
    · intro h; rw [← h]; exact GoError.IsOrWraps.same
    · intro h; cases h; rfl

/-- C10: `getError` returns nil exactly when `Err()` is nil; it returns the
"log entry too large" error exactly when `Err()` is, or wraps, `bufio.ErrTooLong`; and
every other non-nil `Err()` comes back wrapped with the description "scanner error". -/
theorem getError_classifies (ps : PositionalScanner) :
    (ps.getError = none ↔ ps.scanner.Err = none) ∧
      (ps.getError = some (NewError "log entry too large"
          "increase max_log_size or ensure that multiline regex patterns terminate") ↔
        ∃ e, ps.scanner.Err = some e ∧ GoError.IsOrWraps GoError.errTooLong e) ∧
      (∀ e, ps.scanner.Err = some e → ¬ GoError.IsOrWraps GoError.errTooLong e →
        ps.getError = some (Wrap e "scanner error")) := by
  unfold PositionalScanner.getError
  cases herr : ps.scanner.Err with
  | none => simp [errorsIs]
  | some e =>
    by_cases his : e.is GoError.errTooLong = true
    · have hw := (GoError.is_iff GoError.errTooLong e).mp his
      simp [errorsIs, his, hw]
    · have hw : ¬ GoError.IsOrWraps GoError.errTooLong e :=
        fun h => his ((GoError.is_iff GoError.errTooLong e).mpr h)
      simp [errorsIs, his, hw, Wrap, NewError]

/-! ## Errors, monotonicity and transparency of the wrapped split function -/

/-- The stalled test of `scanFunc` holds only for the strategy result `(0, nil, nil)`. -/
theorem eq_needMore_of_stalled {r : SplitResult}
    (h : r.advance = 0 ∧ r.token = ByteSlice.nil ∧ r.err = none) :
    r = { advance := 0, token := ByteSlice.nil, err := none } := by
  cases r
  simp only at h
  obtain ⟨h1, h2, h3⟩ := h
  rw [h1, h2, h3]

/-- C11 fails on the position: from the starting offset `math.MaxInt64`, with
`maxLogSize = 5 ≥ 0`, a strategy that fails with an eight-byte token gets its error back
with advance 5, and `Pos()` goes from `math.MaxInt64` to `math.MinInt64 + 4`: it has not
been incremented by 5. -/
theorem scanFunc_error_unchanged_counterexample :
    (0 : Int) ≤ 5 ∧ (failingStrategy eightBytes false).err ≠ none ∧
      ((NewPositionalScanner [] 5 intMax failingStrategy).bind fun ps =>
        (scanFunc 5 failingStrategy ps eightBytes false).map fun p =>
          (p.1.err, p.1.advance, ps.Pos, p.2.Pos)) =
        some ((failingStrategy eightBytes false).err, 5, intMax, intMin + 4) ∧
      intMin + 4 ≠ intMax + 5 := by
  decide

/-- C11, amended: with `maxLogSize = M ≥ 0`, when the strategy returns a non-nil error
the wrapped split function returns that same error, and `Pos()` becomes `Pos()` plus the
advance it returns in `int64` arithmetic, so it is incremented by exactly that advance
provided the sum is representable as an `int64`. -/
theorem scanFunc_error_unchanged (M : Int) (splitFunc : SplitFunc) (ps : PositionalScanner)
    (data : ByteSlice) (atEOF : Bool) (hM : 0 ≤ M)
    (herr : (splitFunc data atEOF).err ≠ none) :
    ∃ o ps1, scanFunc M splitFunc ps data atEOF = some (o, ps1) ∧
      o.err = (splitFunc data atEOF).err ∧ ps1.Pos = wrapInt (ps.Pos + o.advance) ∧
      (InRange (ps.Pos + o.advance) → ps1.Pos = ps.Pos + o.advance) := by
  have hns : ¬ (((splitFunc data atEOF).advance = 0 ∧
      (splitFunc data atEOF).token = ByteSlice.nil ∧ (splitFunc data atEOF).err = none) ∧
      wrapInt (2 * M) ≤ data.len) := fun h => herr h.1.2.2
  by_cases hlen : M < (splitFunc data atEOF).token.len
  · obtain ⟨t, ht, _⟩ := (splitFunc data atEOF).token.sliceTo_of_le_len hM (le_of_lt hlen)
    exact ⟨_, _, scanFunc_oversized hM hlen ht, rfl, rfl, fun hin => wrapInt_of_inRange hin⟩
  · exact ⟨_, _, scanFunc_transparent hns (not_lt.mp hlen), rfl, rfl,
      fun hin => wrapInt_of_inRange hin⟩

/-- C11 amended, at a strategy that fails with an eight-byte token, with `maxLogSize = 5`. -/
theorem scanFunc_error_unchanged_witness :
    ∃ o ps1, scanFunc 5 failingStrategy (freshAt 0) eightBytes false = some (o, ps1) ∧
      o.err = (failingStrategy eightBytes false).err ∧
      ps1.Pos = wrapInt ((freshAt 0).Pos + o.advance) ∧
      (InRange ((freshAt 0).Pos + o.advance) → ps1.Pos = (freshAt 0).Pos + o.advance) :=
  scanFunc_error_unchanged 5 failingStrategy (freshAt 0) eightBytes false (by decide)
    (by decide)

/-- C13 fails: from the starting offset `math.MaxInt64`, with `maxLogSize = 10 ≥ 0`, a
strategy that returns an eight-byte token with advance `8 ≥ 0` leaves `Pos()` at
`math.MinInt64 + 7`, below the position before the call: the `int64` addition wraps. -/
theorem scanFunc_pos_monotone_counterexample :
    (0 : Int) ≤ 10 ∧ 0 ≤ (eightStrategy eightBytes false).advance ∧
      ((NewPositionalScanner [] 10 intMax eightStrategy).bind fun ps =>
        (scanFunc 10 eightStrategy ps eightBytes false).map fun p => (ps.Pos, p.2.Pos)) =
        some (intMax, intMin + 7) ∧
      intMin + 7 < intMax := by
  decide

/-- C13, amended: with `maxLogSize = M ≥ 0`, at an invocation in which the strategy's
advance is `≥ 0`, the advance the wrapped split function returns is `≥ 0` and `Pos()` after
the call is `≥ Pos()` before the call, provided `Pos()` plus the returned advance does not
exceed the largest `int64`; the call returns when `2 * M` is representable. -/
theorem scanFunc_pos_monotone (M : Int) (splitFunc : SplitFunc) (ps : PositionalScanner)
    (data : ByteSlice) (atEOF : Bool) (hM : 0 ≤ M)
    (hadv : 0 ≤ (splitFunc data atEOF).advance) (hpos : InRange ps.Pos) :
    (∀ o ps1, scanFunc M splitFunc ps data atEOF = some (o, ps1) →
        0 ≤ o.advance ∧ (ps.Pos + o.advance ≤ intMax → ps.Pos ≤ ps1.Pos)) ∧
      (2 * M ≤ intMax → (scanFunc M splitFunc ps data atEOF).isSome = true) := by
  refine ⟨?_, scanFunc_isSome splitFunc ps data atEOF hM⟩
  intro o ps1 h
  have hps := scanFunc_pos h
  have hadv' : 0 ≤ o.advance := by
    by_cases hs : ((splitFunc data atEOF).advance = 0 ∧
        (splitFunc data atEOF).token = ByteSlice.nil ∧ (splitFunc data atEOF).err = none) ∧
        wrapInt (2 * M) ≤ data.len
    · cases ht : data.sliceTo M with
      | none => simp [scanFunc, hs, ht] at h
      | some t =>
        rw [scanFunc_stalled (eq_needMore_of_stalled hs.1) hs.2 ht] at h
        simp only [Option.some.injEq, Prod.mk.injEq] at h
        rw [← h.1]
        exact hM
    · by_cases hlen : M < (splitFunc data atEOF).token.len
      · obtain ⟨t, ht, _⟩ :=
          (splitFunc data atEOF).token.sliceTo_of_le_len hM (le_of_lt hlen)
        rw [scanFunc_oversized hM hlen ht] at h
        simp only [Option.some.injEq, Prod.mk.injEq] at h
        rw [← h.1]
        exact hM
      · rw [scanFunc_transparent hs (not_lt.mp hlen)] at h
        simp only [Option.some.injEq, Prod.mk.injEq] at h
        rw [← h.1]
        exact hadv
  refine ⟨hadv', ?_⟩
  intro hle
  have hin : InRange (ps.pos + o.advance) := by
    unfold InRange PositionalScanner.Pos at *
    constructor <;> omega
  rw [hps]
  show ps.pos ≤ wrapInt (ps.pos + o.advance)
  rw [wrapInt_of_inRange hin]
  omega

/-- C13 amended, at the eight-byte token with advance 8, `maxLogSize = 10`, position 0. -/
theorem scanFunc_pos_monotone_witness :
    (∀ o ps1, scanFunc 10 eightStrategy (freshAt 0) eightBytes false = some (o, ps1) →
        0 ≤ o.advance ∧ ((freshAt 0).Pos + o.advance ≤ intMax → (freshAt 0).Pos ≤ ps1.Pos)) ∧
      (2 * (10 : Int) ≤ intMax →
        (scanFunc 10 eightStrategy (freshAt 0) eightBytes false).isSome = true) :=
  scanFunc_pos_monotone 10 eightStrategy (freshAt 0) eightBytes false (by decide)
    (by decide) (by decide)

/-- C14 fails: with `maxLogSize = 2^62` (an `int`), the buffer `"abc"` and the strategy
answer `(0, nil, nil)`, the token is not longer than `maxLogSize` and the buffer is shorter
than `2 * maxLogSize`, yet the product `2*maxLogSize` overflows, the stalled branch is
taken and `data[:maxLogSize]` panics: nothing is returned. -/
theorem scanFunc_transparent_when_no_truncation_counterexample :
    InRange 4611686018427387904 ∧
      (lineStrategy threeBytes false).token.len ≤ 4611686018427387904 ∧
      lineStrategy threeBytes false =
        { advance := 0, token := ByteSlice.nil, err := none } ∧
      threeBytes.len < 2 * 4611686018427387904 ∧
      (scanFunc 4611686018427387904 lineStrategy (freshAt 0) threeBytes false).isSome =
        false := by
  decide

/-- C14, amended: for every `maxLogSize = M` with `2 * M` representable, when neither
truncation applies, that is the token is not longer than `M` and the strategy result is
not the stalled case (`(0, nil, nil)` with `len(data) ≥ 2 * M`), the wrapped split
function returns exactly the strategy's result; a result `(0, nil, nil)` is returned as
`(0, nil, nil)` and leaves `Pos()` (an `int64`) unchanged. -/
theorem scanFunc_transparent_when_no_truncation (M : Int) (splitFunc : SplitFunc)
    (ps : PositionalScanner) (data : ByteSlice) (atEOF : Bool)
    (hlen : (splitFunc data atEOF).token.len ≤ M) (h2 : 2 * M ≤ intMax)
    (hns : ¬ (splitFunc data atEOF = { advance := 0, token := ByteSlice.nil, err := none } ∧
      2 * M ≤ data.len))
    (hpos : InRange ps.Pos) :
    ∃ ps1, scanFunc M splitFunc ps data atEOF = some (splitFunc data atEOF, ps1) ∧
      ps1.Pos = wrapInt (ps.Pos + (splitFunc data atEOF).advance) ∧
      (splitFunc data atEOF = { advance := 0, token := ByteSlice.nil, err := none } →
        ps1.Pos = ps.Pos) := by
  have hM : 0 ≤ M := le_trans (ByteSlice.len_nonneg _) hlen
  have hw : wrapInt (2 * M) = 2 * M :=
    wrapInt_of_inRange ⟨by unfold intMin; omega, h2⟩
  have hns' : ¬ (((splitFunc data atEOF).advance = 0 ∧
      (splitFunc data atEOF).token = ByteSlice.nil ∧ (splitFunc data atEOF).err = none) ∧
      wrapInt (2 * M) ≤ data.len) := by
    intro h
    apply hns
    refine ⟨eq_needMore_of_stalled h.1, ?_⟩
    have := h.2
    rw [hw] at this
    exact this
  refine ⟨_, scanFunc_transparent hns' hlen, rfl, ?_⟩
  intro hr
  show wrapInt (ps.pos + (splitFunc data atEOF).advance) = ps.pos
  rw [hr]
  simp only [add_zero]
  exact wrapInt_of_inRange hpos

/-- C14 amended, with the line strategy from position 7: at the buffer `"abc"` with
`maxLogSize = 5` the answer `(0, nil, nil)` comes back and the position stays; at the
buffer `"abcdefgh\n"` with `maxLogSize = 10` the eight-byte token comes back with the
strategy's advance 9. -/
theorem scanFunc_transparent_when_no_truncation_witness :
    (∃ ps1, scanFunc 5 lineStrategy (freshAt 7) threeBytes false =
        some (lineStrategy threeBytes false, ps1) ∧
      ps1.Pos = wrapInt ((freshAt 7).Pos + (lineStrategy threeBytes false).advance) ∧
      (lineStrategy threeBytes false = { advance := 0, token := ByteSlice.nil, err := none } →
        ps1.Pos = (freshAt 7).Pos)) ∧
    (∃ ps1, scanFunc 10 lineStrategy (freshAt 7) eightAndNewline false =
        some (lineStrategy eightAndNewline false, ps1) ∧
      ps1.Pos = wrapInt ((freshAt 7).Pos + (lineStrategy eightAndNewline false).advance) ∧
      (lineStrategy eightAndNewline false =
          { advance := 0, token := ByteSlice.nil, err := none } →
        ps1.Pos = (freshAt 7).Pos)) :=
  ⟨scanFunc_transparent_when_no_truncation 5 lineStrategy (freshAt 7) threeBytes false
      (by decide) (by decide) (by decide) (by decide),
    scanFunc_transparent_when_no_truncation 10 lineStrategy (freshAt 7) eightAndNewline false
      (by decide) (by decide) (by decide) (by decide)⟩

/-- C15: with `maxLogSize = M > 0` and a buffer of at least `2 * M` bytes, whatever the
strategy returns, the wrapped split function returns and its result is not the
need-more-data signal `(0, nil, nil)`. -/
theorem scanFunc_progress_at_ceiling (M : Int) (splitFunc : SplitFunc)
    (ps : PositionalScanner) (data : ByteSlice) (atEOF : Bool) (hM : 0 < M)
    (hlen : 2 * M ≤ data.len) :
    ∃ o ps1, scanFunc M splitFunc ps data atEOF = some (o, ps1) ∧
      ¬ (o.advance = 0 ∧ o.token = ByteSlice.nil ∧ o.err = none) := by
  have hw : wrapInt (2 * M) ≤ data.len := by
    unfold wrapInt
    omega
  by_cases hs : (splitFunc data atEOF).advance = 0 ∧
      (splitFunc data atEOF).token = ByteSlice.nil ∧ (splitFunc data atEOF).err = none
  · obtain ⟨t, ht, _⟩ := data.sliceTo_of_le_len (le_of_lt hM) (by omega : M ≤ data.len)
    refine ⟨_, _, scanFunc_stalled (eq_needMore_of_stalled hs) hw ht, ?_⟩
    intro h
    have := h.1
    simp only at this
    omega
  · by_cases hl : M < (splitFunc data atEOF).token.len
    · obtain ⟨t, ht, _⟩ :=
        (splitFunc data atEOF).token.sliceTo_of_le_len (le_of_lt hM) (le_of_lt hl)
      refine ⟨_, _, scanFunc_oversized (le_of_lt hM) hl ht, ?_⟩
      intro h
      have := h.1
      simp only at this
      omega
    · exact ⟨_, _, scanFunc_transparent (fun h => hs h.1) (not_lt.mp hl), hs⟩

/-- C15, at the buffer `"aaaaaaaaaa"` with the line strategy and `maxLogSize = 5`. -/
theorem scanFunc_progress_at_ceiling_witness :
    ∃ o ps1, scanFunc 5 lineStrategy (freshAt 0) tenLetters false = some (o, ps1) ∧
      ¬ (o.advance = 0 ∧ o.token = ByteSlice.nil ∧ o.err = none) :=
  scanFunc_progress_at_ceiling 5 lineStrategy (freshAt 0) tenLetters false (by decide)
    (by decide)

/-! ## Buffer, bounds and the truncated token -/

/-- The buffer handed to the scanner has `defaultBufSize` bytes. -/
theorem NewPositionalScanner_buf_cap (r : Reader) (maxLogSize startOffset : Int)
    (splitFunc : SplitFunc) :
    ∀ ps, NewPositionalScanner r maxLogSize startOffset splitFunc = some ps →
      ps.scanner.buf.cap = 16384 ∧ ps.scanner.maxTokenSize = wrapInt (maxLogSize * 2) := by
  intro ps h
  rw [NewPositionalScanner_eq] at h
  simp only [Option.some.injEq] at h
  subst h
  constructor
  · show (ByteSlice.make0 defaultBufSize).full.cap = 16384
    simp only [ByteSlice.cap, ByteSlice.backing, ByteSlice.full, ByteSlice.make0,
      List.nil_append, List.append_nil, List.length_replicate]
    rfl
  · rfl

/-- C16 fails: with `maxLogSize = 5 > 0` the ceiling is 10 and the buffer is allocated
with capacity 16384, which is not smaller than the ceiling. -/
theorem NewPositionalScanner_capacity_counterexample :
    (0 : Int) < 5 ∧
      (NewPositionalScanner [] 5 0 ScanLines).map
        (fun ps => (ps.scanner.maxTokenSize, ps.scanner.buf.cap,
          decide (ps.scanner.buf.cap < ps.scanner.maxTokenSize))) =
        some (10, 16384, false) := by
  decide!

/-- C16, amended: for every `maxLogSize = M > 0` (an `int`), construction configures the
buffer ceiling to the Go product `M * 2`, which is `2 * M` when that is representable, and
allocates the internal buffer with the capacity `defaultBufSize = 16384`; this capacity is
strictly smaller than the ceiling exactly when `M > 8192` and `2 * M` is representable. -/
theorem NewPositionalScanner_capacity (r : Reader) (M S : Int) (splitFunc : SplitFunc)
    (hM : 0 < M) (hint : M ≤ intMax) :
    ∃ ps, NewPositionalScanner r M S splitFunc = some ps ∧
      ps.scanner.maxTokenSize = wrapInt (M * 2) ∧
      (2 * M ≤ intMax → ps.scanner.maxTokenSize = 2 * M) ∧
      ps.scanner.buf.cap = (defaultBufSize : Int) ∧
      (ps.scanner.buf.cap < ps.scanner.maxTokenSize ↔ 8192 < M ∧ 2 * M ≤ intMax) := by
  refine ⟨_, NewPositionalScanner_eq r M S splitFunc, rfl, ?_, ?_, ?_⟩
  · intro h2
    show wrapInt (M * 2) = 2 * M
    rw [mul_comm]
    exact wrapInt_of_inRange ⟨by unfold intMin; omega, h2⟩
  · exact (NewPositionalScanner_buf_cap r M S splitFunc _
      (NewPositionalScanner_eq r M S splitFunc)).1
  · rw [(NewPositionalScanner_buf_cap r M S splitFunc _
      (NewPositionalScanner_eq r M S splitFunc)).1]
    show 16384 < wrapInt (M * 2) ↔ 8192 < M ∧ 2 * M ≤ intMax
    unfold wrapInt intMax at *
    omega

/-- C16 amended, at `maxLogSize = 10000`: the capacity 16384 is below the ceiling
20000. -/
theorem NewPositionalScanner_capacity_witness :
    ∃ ps, NewPositionalScanner [] 10000 0 ScanLines = some ps ∧
      ps.scanner.maxTokenSize = wrapInt (10000 * 2) ∧
      (2 * (10000 : Int) ≤ intMax → ps.scanner.maxTokenSize = 2 * 10000) ∧
      ps.scanner.buf.cap = (defaultBufSize : Int) ∧
      (ps.scanner.buf.cap < ps.scanner.maxTokenSize ↔
        (8192 : Int) < 10000 ∧ 2 * (10000 : Int) ≤ intMax) :=
  NewPositionalScanner_capacity [] 10000 0 ScanLines (by decide) (by decide)

/-- C17: with `0 ≤ maxLogSize = M` and `2 * M` representable, for every buffer and every
strategy result: the stalled branch is reached only with `len(data) ≥ 2 * M`, where
`data[:M]` is within bounds; the oversized branch is reached only with `len(token) > M`,
where `token[:M]` is within bounds; and the wrapped split function returns. -/
theorem scanFunc_slices_in_bounds (M : Int) (splitFunc : SplitFunc) (ps : PositionalScanner)
    (data : ByteSlice) (atEOF : Bool) (hM : 0 ≤ M) (h2 : 2 * M ≤ intMax) :
    ((((splitFunc data atEOF).advance = 0 ∧ (splitFunc data atEOF).token = ByteSlice.nil ∧
          (splitFunc data atEOF).err = none) ∧ wrapInt (2 * M) ≤ data.len) →
        2 * M ≤ data.len ∧ M ≤ data.len ∧ M ≤ data.cap ∧ (data.sliceTo M).isSome = true) ∧
      (M < (splitFunc data atEOF).token.len →
        M ≤ (splitFunc data atEOF).token.cap ∧
        ((splitFunc data atEOF).token.sliceTo M).isSome = true) ∧
      (scanFunc M splitFunc ps data atEOF).isSome = true := by
  have hw : wrapInt (2 * M) = 2 * M :=
    wrapInt_of_inRange ⟨by unfold intMin; omega, h2⟩
  refine ⟨?_, ?_, scanFunc_isSome splitFunc ps data atEOF hM h2⟩
  · intro hs
    have hlen : 2 * M ≤ data.len := by
      have := hs.2
      rw [hw] at this
      exact this
    have hcap := data.len_le_cap
    refine ⟨hlen, by omega, by omega, ?_⟩
    exact (data.sliceTo_isSome M).mpr ⟨hM, by omega⟩
  · intro hl
    have hcap := (splitFunc data atEOF).token.len_le_cap
    refine ⟨by omega, ?_⟩
    exact ((splitFunc data atEOF).token.sliceTo_isSome M).mpr ⟨hM, by omega⟩

/-- C17, at the buffer `"abcdefgh\n"` with the line strategy and `maxLogSize = 5`. -/
theorem scanFunc_slices_in_bounds_witness :
    ((((lineStrategy eightAndNewline false).advance = 0 ∧
          (lineStrategy eightAndNewline false).token = ByteSlice.nil ∧
          (lineStrategy eightAndNewline false).err = none) ∧
          wrapInt (2 * 5) ≤ eightAndNewline.len) →
        2 * 5 ≤ eightAndNewline.len ∧ 5 ≤ eightAndNewline.len ∧ 5 ≤ eightAndNewline.cap ∧
          (eightAndNewline.sliceTo 5).isSome = true) ∧
      (5 < (lineStrategy eightAndNewline false).token.len →
        5 ≤ (lineStrategy eightAndNewline false).token.cap ∧
        ((lineStrategy eightAndNewline false).token.sliceTo 5).isSome = true) ∧
      (scanFunc 5 lineStrategy (freshAt 0) eightAndNewline false).isSome = true :=
  scanFunc_slices_in_bounds 5 lineStrategy (freshAt 0) eightAndNewline false (by decide)
    (by decide)

/-- The first bytes of a prefix are the first bytes of the whole. -/
theorem take_eq_take_of_prefix {l1 l2 : List Byte} {n : Nat} (hp : l1 <+: l2)
    (hn : n ≤ l1.length) : l1.take n = l2.take n := by
  obtain ⟨t, ht⟩ := hp
  rw [← ht, List.take_append_of_le_length hn]

/-- C18: with `maxLogSize = M ≥ 0`, whenever the wrapped split function truncates (the
stalled branch or the oversized branch) the advance it returns and the length of the token
it returns are both `M`, and `Pos()` grows by that length (an `int64` addition); when the
strategy's token is a prefix of the buffer, the emitted token is `data[:advance]`. The
function returns when `2 * M` is representable. -/
theorem scanFunc_truncation_counts_emitted (M : Int) (splitFunc : SplitFunc)
    (ps : PositionalScanner) (data : ByteSlice) (atEOF : Bool) (hM : 0 ≤ M)
    (htr : (((splitFunc data atEOF).advance = 0 ∧
        (splitFunc data atEOF).token = ByteSlice.nil ∧ (splitFunc data atEOF).err = none) ∧
        wrapInt (2 * M) ≤ data.len) ∨ M < (splitFunc data atEOF).token.len) :
    (∀ o ps1, scanFunc M splitFunc ps data atEOF = some (o, ps1) →
        o.advance = M ∧ o.token.len = M ∧ ps1.Pos = wrapInt (ps.Pos + o.token.len) ∧
        ((splitFunc data atEOF).token.toList <+: data.toList →
          ∃ d, data.sliceTo o.advance = some d ∧ o.token.toList = d.toList)) ∧
      (2 * M ≤ intMax → (scanFunc M splitFunc ps data atEOF).isSome = true) := by
  refine ⟨?_, scanFunc_isSome splitFunc ps data atEOF hM⟩
  intro o ps1 h
  by_cases hs : ((splitFunc data atEOF).advance = 0 ∧
      (splitFunc data atEOF).token = ByteSlice.nil ∧ (splitFunc data atEOF).err = none) ∧
      wrapInt (2 * M) ≤ data.len
  · cases ht : data.sliceTo M with
    | none => simp [scanFunc, hs, ht] at h
    | some t =>
      rw [scanFunc_stalled (eq_needMore_of_stalled hs.1) hs.2 ht] at h
      simp only [Option.some.injEq, Prod.mk.injEq] at h
      obtain ⟨ho, hp⟩ := h
      subst ho
      subst hp
      have hl := ByteSlice.sliceTo_len ht
      refine ⟨rfl, hl, ?_, fun _ => ⟨t, ht, rfl⟩⟩
      show wrapInt (ps.pos + M) = wrapInt (ps.pos + t.len)
      rw [hl]
  · have hl : M < (splitFunc data atEOF).token.len := htr.resolve_left hs
    obtain ⟨t, ht, htl⟩ := (splitFunc data atEOF).token.sliceTo_of_le_len hM (le_of_lt hl)
    rw [scanFunc_oversized hM hl ht] at h
    simp only [Option.some.injEq, Prod.mk.injEq] at h
    obtain ⟨ho, hp⟩ := h
    subst ho
    subst hp
    have hlt := ByteSlice.sliceTo_len ht
    refine ⟨rfl, hlt, ?_, ?_⟩
    · show wrapInt (ps.pos + M) = wrapInt (ps.pos + t.len)
      rw [hlt]
    · intro hpre
      have hle : (splitFunc data atEOF).token.len ≤ data.len := by
        unfold ByteSlice.len
        exact Int.ofNat_le.mpr hpre.length_le
      obtain ⟨d, hd, hdl⟩ := data.sliceTo_of_le_len hM (by omega : M ≤ data.len)
      refine ⟨d, hd, ?_⟩
      show t.toList = d.toList
      rw [htl, hdl]
      apply take_eq_take_of_prefix hpre
      unfold ByteSlice.len at hl
      omega

/-- C18, at the forced split of `"aaaaaaaaaa"` with `maxLogSize = 5`. -/
theorem scanFunc_truncation_counts_emitted_witness :
    (∀ o ps1, scanFunc 5 lineStrategy (freshAt 0) tenLetters false = some (o, ps1) →
        o.advance = 5 ∧ o.token.len = 5 ∧ ps1.Pos = wrapInt ((freshAt 0).Pos + o.token.len) ∧
        ((lineStrategy tenLetters false).token.toList <+: tenLetters.toList →
          ∃ d, tenLetters.sliceTo o.advance = some d ∧ o.token.toList = d.toList)) ∧
      (2 * (5 : Int) ≤ intMax →
        (scanFunc 5 lineStrategy (freshAt 0) tenLetters false).isSome = true) :=
  scanFunc_truncation_counts_emitted 5 lineStrategy (freshAt 0) tenLetters false (by decide)
    (by decide)

/-! ## Driving the scanner -/

/-- C12: over the stream `"ab\ncdef\n"`, with the newline-splitting strategy,
`maxLogSize = 10` and starting offset 0, the first `Scan` yields the token `"ab"` with
`Pos() = 3`, the second the token `"cdef"` with `Pos() = 8`, and the third returns false
with no token, no error and `Pos()` still 8. -/
theorem scan_two_lines :
    (NewPositionalScanner twoLines 10 0 ScanLines).bind (scanTimes 3) =
      some [{ ok := true, token := some [97, 98], pos := 3, err := none },
        { ok := true, token := some [99, 100, 101, 102], pos := 8, err := none },
        { ok := false, token := none, pos := 8, err := none }] := by
  decide!

end Fileconsumer
